import Mathlib

/-!
Verification of the cross-slice synapse identity engine of the
skeleton_synapses repository (file locate_synapses_new.py): the ROI
geometry helper, the stateful slice relabeler
(SynapseSliceRelabeler.normalize_synapse_ids) and the per-object feature
computation in write_synapses are embedded as executable Lean functions,
and the behavioural claims of the specification are proved or refuted
against this embedding.

Conventions of the embedding:
- a 2D label slice is a list of rows of integers (numpy arrays of labels
  become List (List Int); pixel access out of range yields 0, the
  background value);
- a 3D ROI is a pair of integer corner triples (x, y, z), half open, as
  in the source where a roi is a 2x3 array of min/max rows;
- the numpy relabel array (zero initialised, written at label positions,
  then applied pointwise) is modelled as a total function from labels to
  labels with default value 0;
- a Python exception (failed assert, TypeError from max() on an empty
  argument list) is modelled as the result none; the relabeler state
  returned alongside is the state the object holds after the call.
-/

/-- Axis-aligned half-open 2D box, mirroring a 2x2 numpy roi array of
min/max rows over the in-plane axes. -/
structure Roi2 where
  lo : ℤ × ℤ
  hi : ℤ × ℤ
  deriving DecidableEq, Repr

/-- Axis-aligned half-open 3D box, mirroring a 2x3 numpy roi array of
min/max rows over x, y, z. -/
structure Roi3 where
  lo : ℤ × ℤ × ℤ
  hi : ℤ × ℤ × ℤ
  deriving DecidableEq, Repr

/-- In-plane 2D projection of a 3D roi: the source drops the last column
of the roi array (current_roi[:, :-1]). -/
def roi2 (r : Roi3) : Roi2 :=
  ⟨(r.lo.1, r.lo.2.1), (r.hi.1, r.hi.2.1)⟩

/-- The plane index of a 3D roi: entry roi[0, 2] in the source. -/
def planeOf (r : Roi3) : ℤ := r.lo.2.2

/-- Embedding of intersection(roi_a, roi_b): the axis-wise max of mins
and min of maxes; (None, None, None) when some axis has empty overlap;
otherwise the absolute box together with the box translated into the
coordinate frame of each argument. -/
def intersection (a b : Roi2) : Option (Roi2 × Roi2 × Roi2) :=
  let lo : ℤ × ℤ := (max a.lo.1 b.lo.1, max a.lo.2 b.lo.2)
  let hi : ℤ × ℤ := (min a.hi.1 b.hi.1, min a.hi.2 b.hi.2)
  if lo.1 < hi.1 ∧ lo.2 < hi.2 then
    some (⟨lo, hi⟩,
          ⟨(lo.1 - a.lo.1, lo.2 - a.lo.2), (hi.1 - a.lo.1, hi.2 - a.lo.2)⟩,
          ⟨(lo.1 - b.lo.1, lo.2 - b.lo.2), (hi.1 - b.lo.1, hi.2 - b.lo.2)⟩)
  else none

/-- Modelled from the spec, for the refinement statement of claim C9:
the absolute intersection box alone (axis-wise max of mins, min of
maxes, None on empty or degenerate overlap). -/
def interAbs (a b : Roi2) : Option Roi2 :=
  let lo : ℤ × ℤ := (max a.lo.1 b.lo.1, max a.lo.2 b.lo.2)
  let hi : ℤ × ℤ := (min a.hi.1 b.hi.1, min a.hi.2 b.hi.2)
  if lo.1 < hi.1 ∧ lo.2 < hi.2 then some ⟨lo, hi⟩ else none

/-- Modelled from the spec, for claim C9: a box translated by
subtracting an origin (the owning box minimum corner). -/
def shiftRoi (r : Roi2) (o : ℤ × ℤ) : Roi2 :=
  ⟨(r.lo.1 - o.1, r.lo.2 - o.2), (r.hi.1 - o.1, r.hi.2 - o.2)⟩

/-- C9: intersection(a,b) and intersection(b,a) yield the same absolute
intersection box (or both yield None), and each returned relative-frame
box is the absolute box translated by subtracting the corresponding
input box minimum corner. -/
theorem intersection_symmetric (a b : Roi2) :
    intersection a b =
      (interAbs a b).map (fun t => (t, shiftRoi t a.lo, shiftRoi t b.lo)) ∧
    interAbs a b = interAbs b a := by
  constructor
  · unfold intersection interAbs shiftRoi
    by_cases h : max a.lo.1 b.lo.1 < min a.hi.1 b.hi.1 ∧
        max a.lo.2 b.lo.2 < min a.hi.2 b.hi.2
    · simp [h]
    · simp [h]
  · unfold interAbs
    rw [max_comm a.lo.1 b.lo.1, max_comm a.lo.2 b.lo.2,
        min_comm a.hi.1 b.hi.1, min_comm a.hi.2 b.hi.2]

/-- A per-slice label image: a list of rows of integer labels (the numpy
2D array current_slice of the source, indexed slice[x][y]). -/
abbrev Slice := List (List ℤ)

/-- Pixel access with numpy-background default: out-of-range reads give
the background label 0 (only used to state theorems pointwise). -/
def pixel (s : Slice) (x y : ℕ) : ℤ := (s.getD x []).getD y 0

/-- Pointwise application of a relabel map to a whole slice: the numpy
fancy-indexing expression relabel[current_slice]. -/
def mapGrid (f : ℤ → ℤ) (s : Slice) : Slice := s.map (fun row => row.map f)

/-- Embedding of slicing(roi) applied to a 2D array: rectangle extraction
with the half-open bounds of a (relative-frame, hence non-negative) 2D
roi. Out-of-range bounds clip silently, as numpy basic slicing does. -/
def subgrid (s : Slice) (r : Roi2) : Slice :=
  ((s.drop r.lo.1.toNat).take (r.hi.1 - r.lo.1).toNat).map
    (fun row => (row.drop r.lo.2.toNat).take (r.hi.2 - r.lo.2).toNat)

/-- Embedding of np.unique / vigra.analysis.unique on the values of an
array: the distinct values in ascending order. -/
def uniqueSorted (xs : List ℤ) : List ℤ :=
  (List.insertionSort (· ≤ ·) xs).dedup

/-- Embedding of current_intersection_slice[prev_intersection_slice == cc]:
the current-slice values at the positions of the (equally shaped)
intersection region where the previous slice carries label cc. -/
def maskedValues (prevI curI : Slice) (cc : ℤ) : List ℤ :=
  ((prevI.zip curI).flatMap (fun rc => rc.1.zip rc.2)).filterMap
    (fun p => if p.1 = cc then some p.2 else none)

/-- Embedding of np.unique(current_intersection_slice[prev == cc].flat):
the set of current raw labels overlapping previous object cc inside the
intersection region. -/
def overlapSet (prevI curI : Slice) (cc : ℤ) : List ℤ :=
  uniqueSorted (maskedValues prevI curI cc)

/-- State of a SynapseSliceRelabeler instance: max_label,
previous_slice, previous_roi. -/
structure SynapseSliceRelabeler where
  max_label : ℤ
  previous_slice : Option Slice
  previous_roi : Option Roi3
  deriving DecidableEq, Repr

/-- The state built by SynapseSliceRelabeler.__init__: max_label 0 and
no previous slice or roi. -/
def initRelabeler : SynapseSliceRelabeler := ⟨0, none, none⟩

/-- The relabel array of the fresh-relabel branch as a function: the
source writes arange(max_label+1, new_max_label+1) at the positions of
the ascending distinct nonzero labels, so the i-th such label maps to
max_label+1+i and every other value keeps the array default 0. -/
def freshRelabelMap : List ℤ → ℤ → ℤ → ℤ
  | [], _, _ => 0
  | a :: rest, m, v => if v = a then m + 1 else freshRelabelMap rest (m + 1) v

/-- Embedding of the fresh-relabel branch of normalize_synapse_ids:
assert that the smallest unique value is the background 0 (else the
call raises and the state is untouched), return the slice unchanged and
clear the previous state when no nonzero label exists, otherwise map
the distinct nonzero labels to consecutive new ids and store the result
as the new previous slice/roi. -/
def freshRelabel (st : SynapseSliceRelabeler) (cs : Slice) (croi : Roi3) :
    Option Slice × SynapseSliceRelabeler :=
  match uniqueSorted cs.flatten with
  | [] => (none, st)
  | u0 :: nz =>
    if u0 = 0 then
      match nz with
      | [] => (some cs, ⟨st.max_label, none, none⟩)
      | _ :: _ =>
        (some (mapGrid (freshRelabelMap nz st.max_label) cs),
         ⟨st.max_label + nz.length,
          some (mapGrid (freshRelabelMap nz st.max_label) cs), some croi⟩)
    else (none, st)

/-- The first loop of the continuity branch: for each previous object cc
in ascending order, write cc into the relabel array at every current
label overlapping cc in the intersection region. -/
def claimLoop (prevI curI : Slice) : List ℤ → (ℤ → ℤ) → (ℤ → ℤ)
  | [], m => m
  | cc :: rest, m =>
      claimLoop prevI curI rest
        (fun v => if v ∈ overlapSet prevI curI cc then cc else m v)

/-- The second loop of the continuity branch: every current object whose
relabel entry is still 0 receives new_max_label+1, incrementing
new_max_label each time. -/
def freshLoop : List ℤ → (ℤ → ℤ) → ℤ → (ℤ → ℤ) × ℤ
  | [], m, nm => (m, nm)
  | v :: rest, m, nm =>
      if m v = 0 then
        freshLoop rest (fun w => if w = v then nm + 1 else m w) (nm + 1)
      else freshLoop rest m nm

/-- The two loops of the continuity branch chained: the claim loop over
the ascending previous objects seeds the relabel array, then the fresh
loop over the ascending current objects allocates new ids; the pair is
the final relabel array together with the final new_max_label. -/
def continuityCore (maxL : ℤ) (cs ps : Slice) (cir pir : Roi2) :
    (ℤ → ℤ) × ℤ :=
  freshLoop ((uniqueSorted cs.flatten).tail)
    (claimLoop (subgrid ps pir) (subgrid cs cir)
      ((uniqueSorted ps.flatten).tail) (fun _ => 0))
    maxL

/-- The final relabel map of the continuity branch, after the statement
relabel[0] = 0 of the source. -/
def continuityMap (maxL : ℤ) (cs ps : Slice) (cir pir : Roi2) : ℤ → ℤ :=
  fun v => if v = 0 then 0 else (continuityCore maxL cs ps cir pir).1 v

/-- Embedding of the continuity branch of normalize_synapse_ids. The
source evaluates max(0, *current_slice_objects) before the loops, which
raises a TypeError when the current slice has no nonzero label (modelled
as none with the state untouched). Otherwise both loops run, the entry
for label 0 is reset to 0, the map is applied to the full current slice
and the result is stored as the new previous state. -/
def continuityRelabel (st : SynapseSliceRelabeler) (cs : Slice) (croi : Roi3)
    (ps : Slice) (cir pir : Roi2) : Option Slice × SynapseSliceRelabeler :=
  match (uniqueSorted cs.flatten).tail with
  | [] => (none, st)
  | _ :: _ =>
    (some (mapGrid (continuityMap st.max_label cs ps cir pir) cs),
     ⟨(continuityCore st.max_label cs ps cir pir).2,
      some (mapGrid (continuityMap st.max_label cs ps cir pir) cs),
      some croi⟩)

/-- The branch condition of normalize_synapse_ids: a fresh relabel is
performed when there is no previous roi or slice, the in-plane
projections do not intersect, or the plane indices differ by more than
one; otherwise the continuity branch runs. -/
def freshCondition (st : SynapseSliceRelabeler) (croi : Roi3) : Bool :=
  match st.previous_roi, st.previous_slice with
  | some proi, some _ =>
    match intersection (roi2 croi) (roi2 proi) with
    | some _ => decide ((planeOf croi - planeOf proi).natAbs > 1)
    | none => true
  | _, _ => true

/-- Embedding of SynapseSliceRelabeler.normalize_synapse_ids: dispatch
between the fresh-relabel and continuity branches exactly as the
source condition
intersection_roi is None or previous_slice is None or abs(dz) > 1
does, and return the produced slice (none on an exception) together
with the state the relabeler holds after the call. -/
def normalize_synapse_ids (st : SynapseSliceRelabeler) (cs : Slice)
    (croi : Roi3) : Option Slice × SynapseSliceRelabeler :=
  match st.previous_roi, st.previous_slice with
  | some proi, some ps =>
    match intersection (roi2 croi) (roi2 proi) with
    | some ip =>
      if (planeOf croi - planeOf proi).natAbs > 1 then freshRelabel st cs croi
      else continuityRelabel st cs croi ps ip.2.1 ip.2.2
    | none => freshRelabel st cs croi
  | some _, none => freshRelabel st cs croi
  | none, _ => freshRelabel st cs croi

/-- A sequence of normalize calls on one relabeler instance: the list of
(result, state after the call) pairs in call order. -/
def runRelabeler (st : SynapseSliceRelabeler) :
    List (Slice × Roi3) → List (Option Slice × SynapseSliceRelabeler)
  | [] => []
  | (cs, croi) :: rest =>
    normalize_synapse_ids st cs croi
      :: runRelabeler (normalize_synapse_ids st cs croi).2 rest

theorem mem_uniqueSorted {v : ℤ} {xs : List ℤ} :
    v ∈ uniqueSorted xs ↔ v ∈ xs := by
  unfold uniqueSorted
  rw [List.mem_dedup, (List.perm_insertionSort (· ≤ ·) xs).mem_iff]

theorem uniqueSorted_sorted (xs : List ℤ) :
    (uniqueSorted xs).Sorted (· ≤ ·) :=
  (List.sorted_insertionSort (· ≤ ·) xs).sublist (List.dedup_sublist _)

theorem uniqueSorted_nodup (xs : List ℤ) : (uniqueSorted xs).Nodup :=
  List.nodup_dedup _

theorem uniqueSorted_tail_pos {xs : List ℤ} (hv : ∀ v ∈ xs, 0 ≤ v) :
    ∀ v ∈ (uniqueSorted xs).tail, 0 < v := by
  intro v hvmem
  rcases hu : uniqueSorted xs with _ | ⟨h0, t⟩
  · rw [hu] at hvmem; simp at hvmem
  · rw [hu] at hvmem
    simp only [List.tail_cons] at hvmem
    have hsorted := uniqueSorted_sorted xs
    have hnodup := uniqueSorted_nodup xs
    rw [hu, List.sorted_cons] at hsorted
    rw [hu, List.nodup_cons] at hnodup
    have hle : h0 ≤ v := hsorted.1 v hvmem
    have hne : h0 ≠ v := fun he => hnodup.1 (he ▸ hvmem)
    have h0nn : 0 ≤ h0 := by
      refine hv h0 ?_
      rw [← mem_uniqueSorted, hu]; exact List.mem_cons_self _ _
    exact lt_of_le_of_lt h0nn (lt_of_le_of_ne hle hne)

theorem uniqueSorted_zero_cons {xs : List ℤ} (hv : ∀ v ∈ xs, 0 ≤ v)
    (h0 : (0 : ℤ) ∈ xs) :
    uniqueSorted xs = 0 :: (uniqueSorted xs).tail := by
  have h0u : (0 : ℤ) ∈ uniqueSorted xs := mem_uniqueSorted.mpr h0
  rcases hu : uniqueSorted xs with _ | ⟨h, t⟩
  · rw [hu] at h0u; simp at h0u
  · have hsorted := uniqueSorted_sorted xs
    rw [hu, List.sorted_cons] at hsorted
    have hh : h = 0 := by
      rw [hu] at h0u
      rcases List.mem_cons.mp h0u with he | ht
      · omega
      · have h1 : h ≤ 0 := hsorted.1 0 ht
        have h2 : 0 ≤ h := hv h (mem_uniqueSorted.mp (hu ▸ List.mem_cons_self _ _))
        omega
    simp [hh]

theorem pixel_mapGrid (f : ℤ → ℤ) (hf : f 0 = 0) (s : Slice) (x y : ℕ) :
    pixel (mapGrid f s) x y = f (pixel s x y) := by
  unfold pixel mapGrid
  simp only [List.getD_eq_getElem?_getD, List.getElem?_map]
  cases hx : s[x]? with
  | none => simp [hx, hf]
  | some row =>
    simp only [hx, Option.map_some, Option.getD_some,
      List.getD_eq_getElem?_getD, List.getElem?_map]
    cases hy : row[y]? with
    | none => simp [hy, hf]
    | some v => simp [hy]

theorem mapGrid_congr {f g : ℤ → ℤ} (s : Slice)
    (h : ∀ v ∈ s.flatten, f v = g v) : mapGrid f s = mapGrid g s := by
  unfold mapGrid
  refine List.map_congr_left (fun row hrow => ?_)
  refine List.map_congr_left (fun v hvr => ?_)
  exact h v (List.mem_flatten.mpr ⟨row, hrow, hvr⟩)

theorem mapGrid_flatten (f : ℤ → ℤ) (s : Slice) :
    (mapGrid f s).flatten = s.flatten.map f := by
  unfold mapGrid
  rw [List.map_flatten]

theorem pixel_mem_flatten {s : Slice} {x y : ℕ} (hx : x < s.length)
    (hy : y < (s.getD x []).length) : pixel s x y ∈ s.flatten := by
  unfold pixel
  refine List.mem_flatten.mpr ⟨s.getD x [], ?_, ?_⟩
  · have he : s.getD x [] = s[x] := by
      rw [List.getD_eq_getElem?_getD, List.getElem?_eq_getElem hx,
        Option.getD_some]
    rw [he]
    exact List.getElem_mem hx
  · have he : (s.getD x []).getD y 0 = (s.getD x [])[y] := by
      rw [List.getD_eq_getElem?_getD, List.getElem?_eq_getElem hy,
        Option.getD_some]
    rw [he]
    exact List.getElem_mem hy

theorem claimLoop_eq (pI cI : Slice) (l : List ℤ) (m : ℤ → ℤ) (v : ℤ) :
    claimLoop pI cI l m v =
      ((l.filter (fun cc => decide (v ∈ overlapSet pI cI cc))).getLast?).getD
        (m v) := by
  induction l generalizing m with
  | nil => simp [claimLoop]
  | cons cc rest ih =>
    rw [claimLoop, ih, List.filter_cons]
    by_cases hov : v ∈ overlapSet pI cI cc
    · have hd : decide (v ∈ overlapSet pI cI cc) = true := decide_eq_true hov
      rw [if_pos hd, if_pos hov]
      cases hrest : rest.filter (fun c => decide (v ∈ overlapSet pI cI c)) with
      | nil => simp
      | cons a as =>
        rw [List.getLast?_cons_cons]
        obtain ⟨w, hw⟩ := Option.isSome_iff_exists.mp
          (List.getLast?_isSome.mpr (List.cons_ne_nil a as))
        rw [hw, Option.getD_some, Option.getD_some]
    · have hd : ¬ decide (v ∈ overlapSet pI cI cc) = true := by
        simp [hov]
      rw [if_neg hd, if_neg hov]

theorem freshLoop_preserve (l : List ℤ) (m : ℤ → ℤ) (nm : ℤ) (v : ℤ)
    (hv : m v ≠ 0) : (freshLoop l m nm).1 v = m v := by
  induction l generalizing m nm with
  | nil => simp [freshLoop]
  | cons a rest ih =>
    rw [freshLoop]
    by_cases ha : m a = 0
    · have hva : v ≠ a := fun he => hv (he ▸ ha)
      rw [if_pos ha, ih _ _ (by simp [hva, hv])]
      simp [hva]
    · rw [if_neg ha, ih _ _ hv]

theorem freshLoop_mono (l : List ℤ) (m : ℤ → ℤ) (nm : ℤ) :
    nm ≤ (freshLoop l m nm).2 := by
  induction l generalizing m nm with
  | nil => simp [freshLoop]
  | cons a rest ih =>
    rw [freshLoop]
    by_cases ha : m a = 0
    · rw [if_pos ha]
      exact le_trans (by omega) (ih _ _)
    · rw [if_neg ha]
      exact ih _ _

theorem freshLoop_pos_of_mem (l : List ℤ) (m : ℤ → ℤ) (nm : ℤ)
    (hnm : 0 ≤ nm) : ∀ v ∈ l, m v = 0 → 0 < (freshLoop l m nm).1 v := by
  induction l generalizing m nm with
  | nil => simp
  | cons a rest ih =>
    intro v hv hmv
    rw [freshLoop]
    by_cases ha : m a = 0
    · rw [if_pos ha]
      by_cases hva : v = a
      · subst hva
        rw [freshLoop_preserve _ _ _ v (by simp; omega)]
        simp
        omega
      · rcases List.mem_cons.mp hv with he | ht
        · exact absurd he hva
        · exact ih _ _ (by omega) v ht (by simp [hva, hmv])
    · rw [if_neg ha]
      rcases List.mem_cons.mp hv with he | ht
      · exact absurd (he ▸ hmv) (he ▸ ha)
      · exact ih _ _ hnm v ht hmv

theorem freshLoop_bounds (l : List ℤ) (m : ℤ → ℤ) (nm : ℤ)
    (h : ∀ w, 0 ≤ m w ∧ m w ≤ nm) :
    ∀ w, 0 ≤ (freshLoop l m nm).1 w ∧
      (freshLoop l m nm).1 w ≤ (freshLoop l m nm).2 := by
  induction l generalizing m nm with
  | nil =>
    intro w
    simpa [freshLoop] using h w
  | cons a rest ih =>
    intro w
    rw [freshLoop]
    by_cases ha : m a = 0
    · rw [if_pos ha]
      refine ih _ _ (fun u => ?_) w
      by_cases hua : u = a
      · subst hua
        have hnm : 0 ≤ nm := le_trans (h u).1 (h u).2
        refine ⟨?_, ?_⟩
        · simp
          omega
        · simp
      · have hu := h u
        refine ⟨?_, ?_⟩
        · simp only [if_neg hua]
          exact hu.1
        · simp only [if_neg hua]
          omega
    · rw [if_neg ha]
      exact ih _ _ (fun u => ⟨(h u).1, (h u).2⟩) w

theorem freshLoop_char :
    ∀ l : List ℤ, l.Nodup → ∀ (m : ℤ → ℤ) (nm : ℤ), 0 ≤ nm →
      (freshLoop l m nm).2
          = nm + ((l.filter (fun w => decide (m w = 0))).length : ℤ) ∧
      ∀ v, (freshLoop l m nm).1 v =
        if m v = 0 ∧ v ∈ l then
          nm + 1 + ((l.filter (fun w => decide (m w = 0))).indexOf v : ℤ)
        else m v := by
  intro l
  induction l with
  | nil =>
    intro _ m nm _
    refine ⟨by simp [freshLoop], fun v => by simp [freshLoop]⟩
  | cons a rest ih =>
    intro hl m nm hnm
    have hna : a ∉ rest := (List.nodup_cons.mp hl).1
    have hrest : rest.Nodup := (List.nodup_cons.mp hl).2
    rw [freshLoop]
    by_cases ha : m a = 0
    · rw [if_pos ha]
      have hfc : rest.filter
            (fun w => decide ((if w = a then nm + 1 else m w) = 0))
          = rest.filter (fun w => decide (m w = 0)) := by
        refine List.filter_congr (fun x hx => ?_)
        have hxa : x ≠ a := fun he => hna (he ▸ hx)
        simp [hxa]
      obtain ⟨ih2, ih1⟩ :=
        ih hrest (fun w => if w = a then nm + 1 else m w) (nm + 1) (by omega)
      have hda : decide (m a = 0) = true := decide_eq_true ha
      constructor
      · rw [ih2, hfc, List.filter_cons, if_pos hda, List.length_cons]
        push_cast
        ring
      · intro v
        rw [ih1 v, hfc, List.filter_cons, if_pos hda]
        by_cases hva : v = a
        · subst hva
          have hv1 : (if v = v then nm + 1 else m v) = nm + 1 := if_pos rfl
          rw [hv1]
          have hcond : ¬ (nm + 1 = 0 ∧ v ∈ rest) := by
            intro hc
            omega
          rw [if_neg hcond, if_pos ⟨ha, List.mem_cons_self v rest⟩,
            List.indexOf_cons_self]
          simp
        · have hv1 : (if v = a then nm + 1 else m v) = m v := if_neg hva
          rw [hv1]
          by_cases hvm : m v = 0 ∧ v ∈ rest
          · rw [if_pos hvm, if_pos ⟨hvm.1, List.mem_cons_of_mem a hvm.2⟩,
              List.indexOf_cons_ne _ (fun he => hva he.symm)]
            push_cast
            ring
          · have hc2 : ¬ (m v = 0 ∧ v ∈ a :: rest) := by
              intro hc
              rcases List.mem_cons.mp hc.2 with he | ht
              · exact hva he
              · exact hvm ⟨hc.1, ht⟩
            rw [if_neg hvm, if_neg hc2]
    · rw [if_neg ha]
      obtain ⟨ih2, ih1⟩ := ih hrest m nm hnm
      have hda : ¬ decide (m a = 0) = true := by simp [ha]
      constructor
      · rw [ih2, List.filter_cons, if_neg hda]
      · intro v
        rw [ih1 v, List.filter_cons, if_neg hda]
        by_cases hva : v = a
        · subst hva
          have hc1 : ¬ (m v = 0 ∧ v ∈ rest) := fun hc => ha hc.1
          have hc2 : ¬ (m v = 0 ∧ v ∈ v :: rest) := fun hc => ha hc.1
          rw [if_neg hc1, if_neg hc2]
        · by_cases hvm : m v = 0 ∧ v ∈ rest
          · rw [if_pos hvm, if_pos ⟨hvm.1, List.mem_cons_of_mem a hvm.2⟩]
          · have hc2 : ¬ (m v = 0 ∧ v ∈ a :: rest) := by
              intro hc
              rcases List.mem_cons.mp hc.2 with he | ht
              · exact hva he
              · exact hvm ⟨hc.1, ht⟩
            rw [if_neg hvm, if_neg hc2]

theorem normalize_no_roi (maxL : ℤ) (pslice : Option Slice) (cs : Slice)
    (croi : Roi3) :
    normalize_synapse_ids ⟨maxL, pslice, none⟩ cs croi
      = freshRelabel ⟨maxL, pslice, none⟩ cs croi := rfl

theorem normalize_no_slice (maxL : ℤ) (proi : Roi3) (cs : Slice)
    (croi : Roi3) :
    normalize_synapse_ids ⟨maxL, none, some proi⟩ cs croi
      = freshRelabel ⟨maxL, none, some proi⟩ cs croi := rfl

theorem normalize_some_eq (maxL : ℤ) (ps : Slice) (proi : Roi3) (cs : Slice)
    (croi : Roi3) :
    normalize_synapse_ids ⟨maxL, some ps, some proi⟩ cs croi
      = match intersection (roi2 croi) (roi2 proi) with
        | some ip =>
          if (planeOf croi - planeOf proi).natAbs > 1 then
            freshRelabel ⟨maxL, some ps, some proi⟩ cs croi
          else
            continuityRelabel ⟨maxL, some ps, some proi⟩ cs croi ps
              ip.2.1 ip.2.2
        | none => freshRelabel ⟨maxL, some ps, some proi⟩ cs croi := rfl

theorem freshCondition_no_roi (maxL : ℤ) (pslice : Option Slice)
    (croi : Roi3) : freshCondition ⟨maxL, pslice, none⟩ croi = true := rfl

theorem freshCondition_no_slice (maxL : ℤ) (proi : Roi3) (croi : Roi3) :
    freshCondition ⟨maxL, none, some proi⟩ croi = true := rfl

theorem freshCondition_some_eq (maxL : ℤ) (ps : Slice) (proi : Roi3)
    (croi : Roi3) :
    freshCondition ⟨maxL, some ps, some proi⟩ croi
      = match intersection (roi2 croi) (roi2 proi) with
        | some _ => decide ((planeOf croi - planeOf proi).natAbs > 1)
        | none => true := rfl

theorem freshRelabel_eq (st : SynapseSliceRelabeler) (cs : Slice)
    (croi : Roi3) (u0 : ℤ) (nz : List ℤ)
    (hu : uniqueSorted cs.flatten = u0 :: nz) :
    freshRelabel st cs croi
      = if u0 = 0 then
          match nz with
          | [] => (some cs, ⟨st.max_label, none, none⟩)
          | _ :: _ =>
            (some (mapGrid (freshRelabelMap nz st.max_label) cs),
             ⟨st.max_label + nz.length,
              some (mapGrid (freshRelabelMap nz st.max_label) cs),
              some croi⟩)
        else (none, st) := by
  unfold freshRelabel
  rw [hu]

theorem continuityRelabel_nil (st : SynapseSliceRelabeler) (cs : Slice)
    (croi : Roi3) (ps : Slice) (cir pir : Roi2)
    (hu : (uniqueSorted cs.flatten).tail = []) :
    continuityRelabel st cs croi ps cir pir = (none, st) := by
  unfold continuityRelabel
  rw [hu]

theorem continuityRelabel_cons (st : SynapseSliceRelabeler) (cs : Slice)
    (croi : Roi3) (ps : Slice) (cir pir : Roi2) (c0 : ℤ) (crest : List ℤ)
    (hu : (uniqueSorted cs.flatten).tail = c0 :: crest) :
    continuityRelabel st cs croi ps cir pir
      = (some (mapGrid (continuityMap st.max_label cs ps cir pir) cs),
         ⟨(continuityCore st.max_label cs ps cir pir).2,
          some (mapGrid (continuityMap st.max_label cs ps cir pir) cs),
          some croi⟩) := by
  unfold continuityRelabel
  rw [hu]

theorem normalize_some_none (maxL : ℤ) (ps : Slice) (proi : Roi3)
    (cs : Slice) (croi : Roi3)
    (hint : intersection (roi2 croi) (roi2 proi) = none) :
    normalize_synapse_ids ⟨maxL, some ps, some proi⟩ cs croi
      = freshRelabel ⟨maxL, some ps, some proi⟩ cs croi := by
  rw [normalize_some_eq, hint]

theorem normalize_some_some (maxL : ℤ) (ps : Slice) (proi : Roi3)
    (cs : Slice) (croi : Roi3) (ir cir pir : Roi2)
    (hint : intersection (roi2 croi) (roi2 proi) = some (ir, cir, pir)) :
    normalize_synapse_ids ⟨maxL, some ps, some proi⟩ cs croi
      = if (planeOf croi - planeOf proi).natAbs > 1 then
          freshRelabel ⟨maxL, some ps, some proi⟩ cs croi
        else
          continuityRelabel ⟨maxL, some ps, some proi⟩ cs croi ps cir pir := by
  rw [normalize_some_eq, hint]

theorem freshCondition_some_none (maxL : ℤ) (ps : Slice) (proi : Roi3)
    (croi : Roi3) (hint : intersection (roi2 croi) (roi2 proi) = none) :
    freshCondition ⟨maxL, some ps, some proi⟩ croi = true := by
  rw [freshCondition_some_eq, hint]

theorem freshCondition_some_some (maxL : ℤ) (ps : Slice) (proi : Roi3)
    (croi : Roi3) (ip : Roi2 × Roi2 × Roi2)
    (hint : intersection (roi2 croi) (roi2 proi) = some ip) :
    freshCondition ⟨maxL, some ps, some proi⟩ croi
      = decide ((planeOf croi - planeOf proi).natAbs > 1) := by
  rw [freshCondition_some_eq, hint]

theorem normalize_eq_fresh (st : SynapseSliceRelabeler) (cs : Slice)
    (croi : Roi3) (h : freshCondition st croi = true) :
    normalize_synapse_ids st cs croi = freshRelabel st cs croi := by
  obtain ⟨maxL, pslice, proi⟩ := st
  cases proi with
  | none => exact normalize_no_roi maxL pslice cs croi
  | some proi =>
    cases pslice with
    | none => exact normalize_no_slice maxL proi cs croi
    | some ps =>
      cases hint : intersection (roi2 croi) (roi2 proi) with
      | none => exact normalize_some_none maxL ps proi cs croi hint
      | some ip =>
        rw [freshCondition_some_some maxL ps proi croi ip hint,
          decide_eq_true_eq] at h
        rw [normalize_some_some maxL ps proi cs croi ip.1 ip.2.1 ip.2.2
          (by rw [hint]), if_pos h]

theorem normalize_eq_continuity (st : SynapseSliceRelabeler) (cs : Slice)
    (croi proi : Roi3) (ps : Slice) (ir cir pir : Roi2)
    (hroi : st.previous_roi = some proi) (hps : st.previous_slice = some ps)
    (hint : intersection (roi2 croi) (roi2 proi) = some (ir, cir, pir))
    (hz : (planeOf croi - planeOf proi).natAbs ≤ 1) :
    normalize_synapse_ids st cs croi
      = continuityRelabel st cs croi ps cir pir := by
  obtain ⟨maxL, pslice, proi0⟩ := st
  replace hroi : proi0 = some proi := hroi
  replace hps : pslice = some ps := hps
  subst hroi
  subst hps
  rw [normalize_some_some maxL ps proi cs croi ir cir pir hint,
    if_neg (by omega)]

theorem freshRelabel_atomic (st : SynapseSliceRelabeler) (cs : Slice)
    (croi : Roi3) (h : (freshRelabel st cs croi).1 = none) :
    (freshRelabel st cs croi).2 = st := by
  cases hu : uniqueSorted cs.flatten with
  | nil =>
    unfold freshRelabel
    rw [hu]
  | cons u0 nz =>
    rw [freshRelabel_eq st cs croi u0 nz hu] at h ⊢
    by_cases h0 : u0 = 0
    · rw [if_pos h0] at h ⊢
      cases nz with
      | nil => simp at h
      | cons b bs => simp at h
    · rw [if_neg h0]

theorem continuityRelabel_atomic (st : SynapseSliceRelabeler) (cs : Slice)
    (croi : Roi3) (ps : Slice) (cir pir : Roi2)
    (h : (continuityRelabel st cs croi ps cir pir).1 = none) :
    (continuityRelabel st cs croi ps cir pir).2 = st := by
  cases hu : (uniqueSorted cs.flatten).tail with
  | nil => rw [continuityRelabel_nil st cs croi ps cir pir hu]
  | cons c0 crest =>
    rw [continuityRelabel_cons st cs croi ps cir pir c0 crest hu] at h
    simp at h

/-- C6: whenever a normalize call fails (every raising statement of the
source runs before any of the three state fields is written), the
relabeler state after the call equals the state before it; max_label,
previous_slice and previous_roi change only on a fully successful
call. -/
theorem normalize_failure_atomic (st : SynapseSliceRelabeler) (cs : Slice)
    (croi : Roi3) (h : (normalize_synapse_ids st cs croi).1 = none) :
    (normalize_synapse_ids st cs croi).2 = st := by
  obtain ⟨maxL, pslice, proi⟩ := st
  cases proi with
  | none =>
    rw [normalize_no_roi] at h ⊢
    exact freshRelabel_atomic _ cs croi h
  | some proi =>
    cases pslice with
    | none =>
      rw [normalize_no_slice] at h ⊢
      exact freshRelabel_atomic _ cs croi h
    | some ps =>
      cases hint : intersection (roi2 croi) (roi2 proi) with
      | none =>
        rw [normalize_some_none maxL ps proi cs croi hint] at h ⊢
        exact freshRelabel_atomic _ cs croi h
      | some ip =>
        rw [normalize_some_some maxL ps proi cs croi ip.1 ip.2.1 ip.2.2
          (by rw [hint])] at h ⊢
        by_cases hz : (planeOf croi - planeOf proi).natAbs > 1
        · rw [if_pos hz] at h ⊢
          exact freshRelabel_atomic _ cs croi h
        · rw [if_neg hz] at h ⊢
          exact continuityRelabel_atomic _ cs croi ps ip.2.1 ip.2.2 h

/-- C6 witness: a concrete failing call (fresh path, raw slice without a
background pixel, so the background assertion fires) leaves the initial
state untouched. -/
theorem normalize_failure_atomic_witness :
    (normalize_synapse_ids initRelabeler [[1]] ⟨(0, 0, 0), (1, 1, 1)⟩).1
        = none ∧
    (normalize_synapse_ids initRelabeler [[1]] ⟨(0, 0, 0), (1, 1, 1)⟩).2
        = initRelabeler :=
  ⟨by decide,
   normalize_failure_atomic initRelabeler [[1]] ⟨(0, 0, 0), (1, 1, 1)⟩
     (by decide)⟩

/-- C2 (amended): the continuity branch is attempted if and only if a
previous roi and a previous slice are stored, the in-plane projections
of the boxes intersect, and the plane distance is at most 1 (the source
tests abs(dz) > 1, so distance 0 also qualifies, not only distance 1);
when the condition fails, among others for any plane gap of 2 or more,
the call performs the fresh relabel, and when it holds the call
performs the continuity relabel. -/
theorem continuity_eligibility (st : SynapseSliceRelabeler) (cs : Slice)
    (croi : Roi3) :
    (freshCondition st croi = false ↔
      ∃ proi ps ir cir pir,
        st.previous_roi = some proi ∧ st.previous_slice = some ps ∧
        intersection (roi2 croi) (roi2 proi) = some (ir, cir, pir) ∧
        (planeOf croi - planeOf proi).natAbs ≤ 1) ∧
    (freshCondition st croi = true →
      normalize_synapse_ids st cs croi = freshRelabel st cs croi) ∧
    (∀ proi ps ir cir pir,
      st.previous_roi = some proi → st.previous_slice = some ps →
      intersection (roi2 croi) (roi2 proi) = some (ir, cir, pir) →
      (planeOf croi - planeOf proi).natAbs ≤ 1 →
      normalize_synapse_ids st cs croi
        = continuityRelabel st cs croi ps cir pir) := by
  refine ⟨?_, normalize_eq_fresh st cs croi,
    fun proi ps ir cir pir h1 h2 h3 h4 =>
      normalize_eq_continuity st cs croi proi ps ir cir pir h1 h2 h3 h4⟩
  obtain ⟨maxL, pslice, proi0⟩ := st
  cases proi0 with
  | none =>
    rw [freshCondition_no_roi]
    simp
  | some proi =>
    cases pslice with
    | none =>
      rw [freshCondition_no_slice]
      simp
    | some ps =>
      cases hint : intersection (roi2 croi) (roi2 proi) with
      | none =>
        rw [freshCondition_some_none maxL ps proi croi hint]
        constructor
        · intro hc
          exact absurd hc (by simp)
        · rintro ⟨proi2, ps2, ir, cir, pir, h1, h2, h3, h4⟩
          replace h1 : some proi = some proi2 := h1
          injection h1 with h1
          subst h1
          rw [hint] at h3
          exact absurd h3 (by simp)
      | some ip =>
        rw [freshCondition_some_some maxL ps proi croi ip hint,
          decide_eq_false_iff_not]
        constructor
        · intro hz
          exact ⟨proi, ps, ip.1, ip.2.1, ip.2.2, rfl, rfl,
            by rw [hint], by omega⟩
        · rintro ⟨proi2, ps2, ir, cir, pir, h1, h2, h3, h4⟩
          replace h1 : some proi = some proi2 := h1
          injection h1 with h1
          subst h1
          omega

/-- C2 counterexample: with a previous slice stored at the same plane
(plane distance 0, not 1) and an identical box, the source still takes
the continuity branch: freshCondition is false, the call reuses global
id 3, while the fresh relabel that the claim mandates would emit the
new id 4. -/
theorem continuity_on_same_plane :
    freshCondition ⟨3, some [[3, 0]], some ⟨(0, 0, 5), (1, 2, 6)⟩⟩
        ⟨(0, 0, 5), (1, 2, 6)⟩ = false ∧
    (planeOf ⟨(0, 0, 5), (1, 2, 6)⟩
        - planeOf (⟨(0, 0, 5), (1, 2, 6)⟩ : Roi3)).natAbs ≠ 1 ∧
    (normalize_synapse_ids ⟨3, some [[3, 0]], some ⟨(0, 0, 5), (1, 2, 6)⟩⟩
        [[7, 0]] ⟨(0, 0, 5), (1, 2, 6)⟩).1 = some [[3, 0]] ∧
    (freshRelabel ⟨3, some [[3, 0]], some ⟨(0, 0, 5), (1, 2, 6)⟩⟩
        [[7, 0]] ⟨(0, 0, 5), (1, 2, 6)⟩).1 = some [[4, 0]] :=
  ⟨by decide, by decide, by decide, by decide⟩

/-- C2 witness: a plane gap of 2 (plane 6 to plane 8) with overlapping
boxes satisfies freshCondition, and the call is the fresh relabel. -/
theorem continuity_eligibility_witness :
    freshCondition ⟨5, some [[1]], some ⟨(0, 0, 6), (1, 1, 7)⟩⟩
        ⟨(0, 0, 8), (1, 1, 9)⟩ = true ∧
    normalize_synapse_ids ⟨5, some [[1]], some ⟨(0, 0, 6), (1, 1, 7)⟩⟩
        [[0, 1]] ⟨(0, 0, 8), (1, 1, 9)⟩
      = freshRelabel ⟨5, some [[1]], some ⟨(0, 0, 6), (1, 1, 7)⟩⟩
          [[0, 1]] ⟨(0, 0, 8), (1, 1, 9)⟩ :=
  ⟨by decide,
   (continuity_eligibility ⟨5, some [[1]], some ⟨(0, 0, 6), (1, 1, 7)⟩⟩
      [[0, 1]] ⟨(0, 0, 8), (1, 1, 9)⟩).2.1 (by decide)⟩

/-- C5: the code contradicts the spec on empty slices in a
continuity-eligible state. With previous slice [[3]] stored at plane 5
and an overlapping box at plane 6, normalizing the all-zero slice [[0]]
takes the continuity branch and raises (max(0, *[]) is a TypeError in
the source) instead of succeeding with an all-zero slice and cleared
previous state; the state is left untouched. -/
theorem empty_slice_continuity_raises :
    normalize_synapse_ids ⟨3, some [[3]], some ⟨(0, 0, 5), (1, 1, 6)⟩⟩
        [[0]] ⟨(0, 0, 6), (1, 1, 7)⟩
      = (none, ⟨3, some [[3]], some ⟨(0, 0, 5), (1, 1, 6)⟩⟩) := by decide

/-- Dimensions (row count, first-row length) of a raw slice, used to
state the shape part of claim C7. -/
def sliceShape (s : Slice) : ℕ × ℕ := (s.length, (s.headD []).length)

/-- In-plane pixel extent of a 3D box, used to state the shape part of
claim C7. -/
def roiShape (r : Roi3) : ℕ × ℕ :=
  ((r.hi.1 - r.lo.1).toNat, (r.hi.2.1 - r.lo.2.1).toNat)

/-- C7 counterexample: a first call whose box extent (5 x 7) does not
match the slice dimensions (1 x 2) is not rejected: the fresh relabel
runs and produces a normalized slice, silently ignoring the box
extent. -/
theorem shape_mismatch_not_checked :
    sliceShape [[0, 1]] ≠ roiShape ⟨(0, 0, 0), (5, 7, 1)⟩ ∧
    (normalize_synapse_ids initRelabeler [[0, 1]] ⟨(0, 0, 0), (5, 7, 1)⟩).1
      = some [[0, 1]] :=
  ⟨by decide, by decide⟩

/-- C7 (amended): fail-fast holds only for negative labels and only on
the fresh-relabel path, where the background assertion
current_unique_labels[0] == 0 rejects any slice containing a negative
value; the box extent is never compared with the slice dimensions (see
the counterexample). -/
theorem fresh_negative_fails (st : SynapseSliceRelabeler) (cs : Slice)
    (croi : Roi3) (hfresh : freshCondition st croi = true)
    (hneg : ∃ v ∈ cs.flatten, v < 0) :
    (normalize_synapse_ids st cs croi).1 = none := by
  rw [normalize_eq_fresh st cs croi hfresh]
  obtain ⟨v, hv, hvneg⟩ := hneg
  have hvu : v ∈ uniqueSorted cs.flatten := mem_uniqueSorted.mpr hv
  cases hu : uniqueSorted cs.flatten with
  | nil =>
    rw [hu] at hvu
    simp at hvu
  | cons u0 nz =>
    have hsorted := uniqueSorted_sorted cs.flatten
    rw [hu, List.sorted_cons] at hsorted
    have hle : u0 ≤ v := by
      rw [hu] at hvu
      rcases List.mem_cons.mp hvu with he | ht
      · omega
      · exact hsorted.1 v ht
    rw [freshRelabel_eq st cs croi u0 nz hu, if_neg (by omega)]

/-- C7 witness: the raw slice [[-1, 0]] contains a negative value, and
the first call on it (fresh path) fails. -/
theorem fresh_negative_fails_witness :
    (normalize_synapse_ids initRelabeler [[-1, 0]]
      ⟨(0, 0, 0), (1, 2, 1)⟩).1 = none :=
  fresh_negative_fails initRelabeler [[-1, 0]] ⟨(0, 0, 0), (1, 2, 1)⟩
    (by decide) ⟨-1, by decide, by decide⟩

theorem pixel_out_row {s : Slice} {x y : ℕ} (hx : ¬ x < s.length) :
    pixel s x y = 0 := by
  unfold pixel
  rw [List.getD_eq_default s [] (by omega)]
  simp

theorem pixel_out_col {s : Slice} {x y : ℕ}
    (hy : ¬ y < (s.getD x []).length) : pixel s x y = 0 := by
  unfold pixel
  rw [List.getD_eq_default (s.getD x []) (0 : ℤ) (by omega)]

theorem freshRelabelMap_eq_indexOf (nz : List ℤ) (hnd : nz.Nodup) :
    ∀ (m : ℤ) (v : ℤ), v ∈ nz →
      freshRelabelMap nz m v = m + 1 + nz.indexOf v := by
  induction nz with
  | nil =>
    intro m v hv
    cases hv
  | cons a rest ih =>
    intro m v hv
    by_cases hva : v = a
    · subst hva
      rw [freshRelabelMap, if_pos rfl, List.indexOf_cons_self]
      simp
    · have hvr : v ∈ rest := by
        rcases List.mem_cons.mp hv with he | ht
        · exact absurd he hva
        · exact ht
      rw [freshRelabelMap, if_neg hva,
        ih (List.nodup_cons.mp hnd).2 (m + 1) v hvr,
        List.indexOf_cons_ne _ (fun he => hva he.symm)]
      push_cast
      ring

theorem freshRelabelMap_not_mem (nz : List ℤ) :
    ∀ (m : ℤ) (v : ℤ), v ∉ nz → freshRelabelMap nz m v = 0 := by
  induction nz with
  | nil =>
    intro m v _
    rfl
  | cons a rest ih =>
    intro m v hv
    have hva : v ≠ a := fun he => hv (he ▸ List.mem_cons_self a rest)
    rw [freshRelabelMap, if_neg hva]
    exact ih (m + 1) v (fun ht => hv (List.mem_cons_of_mem a ht))

/-- C3: a fresh relabel on a raw slice holding at least one nonzero
label (and the background 0, as the source asserts) maps the i-th
distinct nonzero raw label in ascending order to max_label+1+i: each
distinct label receives a brand-new id, the ids are consecutive
starting at max_label+1, max_label advances by the count of distinct
nonzero labels, and the produced slice and box become the new previous
state; pixelwise, raw label v becomes max_label+1+indexOf v and
background stays 0. -/
theorem fresh_relabel_correct (st : SynapseSliceRelabeler) (cs : Slice)
    (croi : Roi3) (nz : List ℤ)
    (hfresh : freshCondition st croi = true)
    (hu : uniqueSorted cs.flatten = 0 :: nz) (hne : nz ≠ []) :
    normalize_synapse_ids st cs croi
      = (some (mapGrid (freshRelabelMap nz st.max_label) cs),
         ⟨st.max_label + nz.length,
          some (mapGrid (freshRelabelMap nz st.max_label) cs),
          some croi⟩) ∧
    (∀ v ∈ nz, freshRelabelMap nz st.max_label v
        = st.max_label + 1 + nz.indexOf v) ∧
    (∀ v ∈ nz, st.max_label < freshRelabelMap nz st.max_label v) ∧
    (∀ x y : ℕ, pixel (mapGrid (freshRelabelMap nz st.max_label) cs) x y
        = if pixel cs x y = 0 then 0
          else st.max_label + 1 + nz.indexOf (pixel cs x y)) := by
  have hnd : nz.Nodup := by
    have h := uniqueSorted_nodup cs.flatten
    rw [hu, List.nodup_cons] at h
    exact h.2
  have h0nz : (0 : ℤ) ∉ nz := by
    have h := uniqueSorted_nodup cs.flatten
    rw [hu, List.nodup_cons] at h
    exact h.1
  have hf0 : freshRelabelMap nz st.max_label 0 = 0 :=
    freshRelabelMap_not_mem nz st.max_label 0 h0nz
  have hidx := freshRelabelMap_eq_indexOf nz hnd st.max_label
  refine ⟨?_, hidx, ?_, ?_⟩
  · rw [normalize_eq_fresh st cs croi hfresh,
      freshRelabel_eq st cs croi 0 nz hu, if_pos rfl]
    rcases nz with _ | ⟨a, rest⟩
    · exact absurd rfl hne
    · rfl
  · intro v hv
    rw [hidx v hv]
    have : (0 : ℤ) ≤ nz.indexOf v := Int.natCast_nonneg _
    omega
  · intro x y
    rw [pixel_mapGrid _ hf0]
    by_cases hz : pixel cs x y = 0
    · rw [if_pos hz, hz, hf0]
    · rw [if_neg hz]
      by_cases hx : x < cs.length
      · by_cases hy : y < (cs.getD x []).length
        · have hmem : pixel cs x y ∈ cs.flatten := pixel_mem_flatten hx hy
          have humem : pixel cs x y ∈ uniqueSorted cs.flatten :=
            mem_uniqueSorted.mpr hmem
          rw [hu] at humem
          rcases List.mem_cons.mp humem with he | ht
          · exact absurd he hz
          · exact hidx _ ht
        · exact absurd (pixel_out_col hy) hz
      · exact absurd (pixel_out_row hx) hz

/-- C3 witness: the first call (no previous state) on a raw slice with
labels 1 and 2 yields normalized labels 1 and 2 and max_label 2. -/
theorem fresh_relabel_correct_witness :
    normalize_synapse_ids initRelabeler [[0, 1, 2]] ⟨(0, 0, 0), (1, 3, 1)⟩
      = (some [[0, 1, 2]],
         ⟨2, some [[0, 1, 2]], some ⟨(0, 0, 0), (1, 3, 1)⟩⟩) :=
  ((fresh_relabel_correct initRelabeler [[0, 1, 2]] ⟨(0, 0, 0), (1, 3, 1)⟩
      [1, 2] (by decide) (by decide) (by decide)).1).trans (by decide)

theorem nodup_tail {l : List ℤ} (h : l.Nodup) : l.tail.Nodup := by
  cases l with
  | nil => simp
  | cons a t => exact (List.nodup_cons.mp h).2

/-- Modelled from the spec wording of claim C1: the previous object id
claimed by current raw label v, namely the previous object encountered
last when iterating the ascending previous labels whose overlap set in
the intersection region contains v (none when no previous object
overlaps v). -/
def claimedId (prevI curI : Slice) (prevObjs : List ℤ) (v : ℤ) :
    Option ℤ :=
  (prevObjs.filter (fun cc => decide (v ∈ overlapSet prevI curI cc))).getLast?

/-- Modelled from the spec wording of claim C1: the current objects not
claimed by any previous object, in ascending order. -/
def unclaimedLabels (prevI curI : Slice) (prevObjs curObjs : List ℤ) :
    List ℤ :=
  curObjs.filter (fun w => (claimedId prevI curI prevObjs w).isNone)

/-- Modelled from the spec wording of claim C1: the declarative raw to
global map of a continuity relabel. Label 0 maps to 0; a claimed
current label receives the global id of the previous object that
claimed it last (ascending iteration); the i-th unclaimed current
object in ascending order receives the fresh id max_label+1+i. -/
def specContinuityMap (prevI curI : Slice) (prevObjs curObjs : List ℤ)
    (maxL : ℤ) (v : ℤ) : ℤ :=
  if v = 0 then 0
  else
    match claimedId prevI curI prevObjs v with
    | some cc => cc
    | none =>
      if v ∈ unclaimedLabels prevI curI prevObjs curObjs then
        maxL + 1
          + ((unclaimedLabels prevI curI prevObjs curObjs).indexOf v : ℤ)
      else 0

theorem claimedId_pos (prevI curI : Slice) (prevObjs : List ℤ)
    (hpos : ∀ cc ∈ prevObjs, 0 < cc) (v : ℤ) (cc : ℤ)
    (h : claimedId prevI curI prevObjs v = some cc) : 0 < cc := by
  have hmem : cc ∈ (prevObjs.filter
      (fun cc => decide (v ∈ overlapSet prevI curI cc))).getLast? := by
    unfold claimedId at h
    rw [h]
    rfl
  exact hpos cc (List.mem_of_mem_filter (List.mem_of_mem_getLast? hmem))

theorem claimLoop_eq_claimedId (prevI curI : Slice) (prevObjs : List ℤ)
    (v : ℤ) :
    claimLoop prevI curI prevObjs (fun _ => 0) v
      = (claimedId prevI curI prevObjs v).getD 0 :=
  claimLoop_eq prevI curI prevObjs (fun _ => 0) v

theorem claimLoop_zero_iff (prevI curI : Slice) (prevObjs : List ℤ)
    (hpos : ∀ cc ∈ prevObjs, 0 < cc) (v : ℤ) :
    claimLoop prevI curI prevObjs (fun _ => 0) v = 0
      ↔ claimedId prevI curI prevObjs v = none := by
  rw [claimLoop_eq_claimedId]
  cases hc : claimedId prevI curI prevObjs v with
  | none => simp
  | some cc =>
    have := claimedId_pos prevI curI prevObjs hpos v cc hc
    simp
    omega

/-- The relabel map built by the two loops of the continuity branch
agrees, on every value of the current slice, with the declarative map
of the specification, provided the state and the input are
well-formed: non-negative previous labels, non-negative max_label, and
a current slice with non-negative values containing the background
0. -/
theorem continuityMap_char (maxL : ℤ) (cs ps : Slice) (cir pir : Roi2)
    (hm : 0 ≤ maxL) (hprev : ∀ v ∈ ps.flatten, 0 ≤ v)
    (hvalid : ∀ v ∈ cs.flatten, 0 ≤ v) (h0 : (0 : ℤ) ∈ cs.flatten) :
    ∀ v ∈ cs.flatten,
      continuityMap maxL cs ps cir pir v
        = specContinuityMap (subgrid ps pir) (subgrid cs cir)
            ((uniqueSorted ps.flatten).tail)
            ((uniqueSorted cs.flatten).tail) maxL v := by
  intro v hv
  have hprevpos : ∀ cc ∈ (uniqueSorted ps.flatten).tail, 0 < cc :=
    uniqueSorted_tail_pos hprev
  have hcnd : ((uniqueSorted cs.flatten).tail).Nodup :=
    nodup_tail (uniqueSorted_nodup cs.flatten)
  obtain ⟨hchar2, hchar1⟩ :=
    freshLoop_char ((uniqueSorted cs.flatten).tail) hcnd
      (claimLoop (subgrid ps pir) (subgrid cs cir)
        ((uniqueSorted ps.flatten).tail) (fun _ => 0))
      maxL hm
  have hfeq : ((uniqueSorted cs.flatten).tail).filter
        (fun w => decide (claimLoop (subgrid ps pir) (subgrid cs cir)
          ((uniqueSorted ps.flatten).tail) (fun _ => 0) w = 0))
      = unclaimedLabels (subgrid ps pir) (subgrid cs cir)
          ((uniqueSorted ps.flatten).tail)
          ((uniqueSorted cs.flatten).tail) := by
    refine List.filter_congr (fun w _ => ?_)
    have hiff := claimLoop_zero_iff (subgrid ps pir) (subgrid cs cir)
      ((uniqueSorted ps.flatten).tail) hprevpos w
    cases hc : claimedId (subgrid ps pir) (subgrid cs cir)
        ((uniqueSorted ps.flatten).tail) w with
    | none =>
      have hcz := hiff.mpr hc
      simp [hcz, hc]
    | some cc =>
      have hne : ¬ claimLoop (subgrid ps pir) (subgrid cs cir)
          ((uniqueSorted ps.flatten).tail) (fun _ => 0) w = 0 := by
        intro hzz
        rw [hiff.mp hzz] at hc
        cases hc
      simp [hne, hc]
  unfold continuityMap continuityCore specContinuityMap
  by_cases hz : v = 0
  · rw [if_pos hz, if_pos hz]
  · rw [if_neg hz, if_neg hz, hchar1 v, hfeq]
    have hvt : v ∈ (uniqueSorted cs.flatten).tail := by
      have hvu : v ∈ uniqueSorted cs.flatten := mem_uniqueSorted.mpr hv
      rw [uniqueSorted_zero_cons hvalid h0] at hvu
      rcases List.mem_cons.mp hvu with he | ht
      · exact absurd he hz
      · exact ht
    cases hc : claimedId (subgrid ps pir) (subgrid cs cir)
        ((uniqueSorted ps.flatten).tail) v with
    | some cc =>
      have hcz : ¬ claimLoop (subgrid ps pir) (subgrid cs cir)
          ((uniqueSorted ps.flatten).tail) (fun _ => 0) v = 0 := by
        rw [claimLoop_zero_iff _ _ _ hprevpos, hc]
        simp
      rw [if_neg (fun hcon => hcz hcon.1), claimLoop_eq_claimedId, hc]
      rfl
    | none =>
      have hcz : claimLoop (subgrid ps pir) (subgrid cs cir)
          ((uniqueSorted ps.flatten).tail) (fun _ => 0) v = 0 := by
        rw [claimLoop_zero_iff _ _ _ hprevpos, hc]
      have hvun : v ∈ unclaimedLabels (subgrid ps pir) (subgrid cs cir)
          ((uniqueSorted ps.flatten).tail)
          ((uniqueSorted cs.flatten).tail) := by
        refine List.mem_filter.mpr ⟨hvt, ?_⟩
        rw [hc]
        rfl
      rw [if_pos ⟨hcz, hvt⟩, if_pos hvun]

/-- C1: for a continuity-eligible normalize call on well-formed input
(non-negative labels, background 0 present, at least one nonzero label,
well-formed state), the produced slice is the declarative map applied
to every pixel of the full current slice: label 0 maps to 0, every
current raw label overlapping previous objects in the intersection
region receives the global id of the previous object encountered last
when iterating the ascending previous labels (so a single overlap like
raw label 9 over global id 3 yields 3, not a new id), and the i-th
unclaimed current label in ascending order receives the fresh id
global_max_label+1+i. -/
theorem continuity_relabel_correct (st : SynapseSliceRelabeler)
    (cs : Slice) (croi proi : Roi3) (ps : Slice) (ir cir pir : Roi2)
    (hroi : st.previous_roi = some proi)
    (hps : st.previous_slice = some ps)
    (hint : intersection (roi2 croi) (roi2 proi) = some (ir, cir, pir))
    (hz : (planeOf croi - planeOf proi).natAbs ≤ 1)
    (hm : 0 ≤ st.max_label) (hprev : ∀ v ∈ ps.flatten, 0 ≤ v)
    (hvalid : ∀ v ∈ cs.flatten, 0 ≤ v) (h0 : (0 : ℤ) ∈ cs.flatten)
    (hnz : ∃ v ∈ cs.flatten, v ≠ 0) :
    (normalize_synapse_ids st cs croi).1
      = some (mapGrid
          (specContinuityMap (subgrid ps pir) (subgrid cs cir)
            ((uniqueSorted ps.flatten).tail)
            ((uniqueSorted cs.flatten).tail) st.max_label)
          cs) := by
  rw [normalize_eq_continuity st cs croi proi ps ir cir pir hroi hps hint
    hz]
  obtain ⟨w, hw, hwne⟩ := hnz
  have hwt : w ∈ (uniqueSorted cs.flatten).tail := by
    have hwu : w ∈ uniqueSorted cs.flatten := mem_uniqueSorted.mpr hw
    rw [uniqueSorted_zero_cons hvalid h0] at hwu
    rcases List.mem_cons.mp hwu with he | ht
    · exact absurd he hwne
    · exact ht
  rcases hct : (uniqueSorted cs.flatten).tail with _ | ⟨c0, crest⟩
  · rw [hct] at hwt
    cases hwt
  · rw [continuityRelabel_cons st cs croi ps cir pir c0 crest hct, ← hct]
    exact congrArg some
      (mapGrid_congr cs
        (continuityMap_char st.max_label cs ps cir pir hm hprev hvalid h0))

/-- C1 witness: the continuity scenario of spec section 8 with slice A
(raw 7 became global 3) at plane 5 and slice B at plane 6 over the same
box, where raw label 9 overlaps global id 3: label 9 is relabeled to 3,
not to a new id. -/
theorem continuity_relabel_correct_witness :
    (normalize_synapse_ids ⟨3, some [[3], [0]], some ⟨(0, 0, 5), (2, 1, 6)⟩⟩
        [[9], [0]] ⟨(0, 0, 6), (2, 1, 7)⟩).1 = some [[3], [0]] :=
  (continuity_relabel_correct
      ⟨3, some [[3], [0]], some ⟨(0, 0, 5), (2, 1, 6)⟩⟩
      [[9], [0]] ⟨(0, 0, 6), (2, 1, 7)⟩ ⟨(0, 0, 5), (2, 1, 6)⟩ [[3], [0]]
      ⟨(0, 0), (2, 1)⟩ ⟨(0, 0), (2, 1)⟩ ⟨(0, 0), (2, 1)⟩
      rfl rfl (by decide) (by decide) (by decide) (by decide) (by decide)
      (by decide) ⟨9, by decide, by decide⟩).trans (by decide)

theorem claimedId_mem (prevI curI : Slice) (prevObjs : List ℤ) (v cc : ℤ)
    (h : claimedId prevI curI prevObjs v = some cc) : cc ∈ prevObjs := by
  have hmem : cc ∈ (prevObjs.filter
      (fun cc => decide (v ∈ overlapSet prevI curI cc))).getLast? := by
    unfold claimedId at h
    rw [h]
    rfl
  exact List.mem_of_mem_filter (List.mem_of_mem_getLast? hmem)

theorem specContinuityMap_pos (prevI curI : Slice)
    (prevObjs curObjs : List ℤ) (maxL v : ℤ) (hm : 0 ≤ maxL)
    (hpos : ∀ cc ∈ prevObjs, 0 < cc) (hvc : v ∈ curObjs) (hvz : v ≠ 0) :
    0 < specContinuityMap prevI curI prevObjs curObjs maxL v := by
  unfold specContinuityMap
  rw [if_neg hvz]
  cases hc : claimedId prevI curI prevObjs v with
  | some cc => exact claimedId_pos prevI curI prevObjs hpos v cc hc
  | none =>
    have hvm : v ∈ unclaimedLabels prevI curI prevObjs curObjs :=
      List.mem_filter.mpr ⟨hvc, by rw [hc]; rfl⟩
    show 0 < if v ∈ unclaimedLabels prevI curI prevObjs curObjs then
      maxL + 1 + ((unclaimedLabels prevI curI prevObjs curObjs).indexOf v : ℤ)
      else 0
    rw [if_pos hvm]
    have hix : (0 : ℤ)
        ≤ ((unclaimedLabels prevI curI prevObjs curObjs).indexOf v : ℤ) :=
      Int.natCast_nonneg _
    omega

theorem continuityMap_zero (maxL : ℤ) (cs ps : Slice) (cir pir : Roi2) :
    continuityMap maxL cs ps cir pir 0 = 0 := by
  unfold continuityMap
  rw [if_pos rfl]

theorem freshCondition_false_elim (st : SynapseSliceRelabeler)
    (croi : Roi3) (h : freshCondition st croi = false) :
    ∃ proi ps ir cir pir,
      st.previous_roi = some proi ∧ st.previous_slice = some ps ∧
      intersection (roi2 croi) (roi2 proi) = some (ir, cir, pir) ∧
      (planeOf croi - planeOf proi).natAbs ≤ 1 := by
  obtain ⟨maxL, pslice, proi0⟩ := st
  cases proi0 with
  | none =>
    rw [freshCondition_no_roi] at h
    cases h
  | some proi =>
    cases pslice with
    | none =>
      rw [freshCondition_no_slice] at h
      cases h
    | some ps =>
      cases hint : intersection (roi2 croi) (roi2 proi) with
      | none =>
        rw [freshCondition_some_none maxL ps proi croi hint] at h
        cases h
      | some ip =>
        rw [freshCondition_some_some maxL ps proi croi ip hint,
          decide_eq_false_iff_not] at h
        exact ⟨proi, ps, ip.1, ip.2.1, ip.2.2, rfl, rfl, by rw [hint],
          by omega⟩

/-- C10 (amended): for every normalize call that succeeds on a raw
slice that contains the background label 0 (the assumption the source
itself asserts on the fresh path) with non-negative labels and a
well-formed state, a pixel of the output is 0 exactly when the
corresponding input pixel is 0: no foreground pixel is dropped and no
background pixel acquires a label, on both paths. Without a background
pixel the continuity path can drop a foreground label (see the
counterexample). -/
theorem background_preserved (st : SynapseSliceRelabeler) (cs : Slice)
    (croi : Roi3) (out : Slice) (hm : 0 ≤ st.max_label)
    (hprev : ∀ v ∈ (st.previous_slice.getD []).flatten, 0 ≤ v)
    (hvalid : ∀ v ∈ cs.flatten, 0 ≤ v) (h0 : (0 : ℤ) ∈ cs.flatten)
    (hout : (normalize_synapse_ids st cs croi).1 = some out) :
    ∀ x y : ℕ, (pixel out x y = 0 ↔ pixel cs x y = 0) := by
  intro x y
  by_cases hf : freshCondition st croi = true
  · rw [normalize_eq_fresh st cs croi hf] at hout
    have hcons := uniqueSorted_zero_cons hvalid h0
    rcases hnt : (uniqueSorted cs.flatten).tail with _ | ⟨a, rest⟩
    · have hu0 : uniqueSorted cs.flatten = [0] := by rw [hcons, hnt]
      rw [freshRelabel_eq st cs croi 0 [] hu0, if_pos rfl] at hout
      replace hout : some cs = some out := hout
      injection hout with hout
      rw [← hout]
    · have hu0 : uniqueSorted cs.flatten = 0 :: a :: rest := by
        rw [hcons, hnt]
      rw [freshRelabel_eq st cs croi 0 (a :: rest) hu0, if_pos rfl] at hout
      replace hout :
          some (mapGrid (freshRelabelMap (a :: rest) st.max_label) cs)
            = some out := hout
      injection hout with hout
      have h0nz : (0 : ℤ) ∉ a :: rest := by
        have h := uniqueSorted_nodup cs.flatten
        rw [hu0, List.nodup_cons] at h
        exact h.1
      have hf0 : freshRelabelMap (a :: rest) st.max_label 0 = 0 :=
        freshRelabelMap_not_mem _ _ _ h0nz
      have hnd : (a :: rest).Nodup := by
        have h := uniqueSorted_nodup cs.flatten
        rw [hu0, List.nodup_cons] at h
        exact h.2
      rw [← hout, pixel_mapGrid _ hf0]
      constructor
      · intro hmapz
        by_contra hne
        by_cases hx : x < cs.length
        · by_cases hy : y < (cs.getD x []).length
          · have hmem := pixel_mem_flatten hx hy
            have humem : pixel cs x y ∈ uniqueSorted cs.flatten :=
              mem_uniqueSorted.mpr hmem
            rw [hu0] at humem
            rcases List.mem_cons.mp humem with he | ht
            · exact hne he
            · have hval := freshRelabelMap_eq_indexOf (a :: rest) hnd
                st.max_label _ ht
              have hixp : (0 : ℤ)
                  ≤ ((a :: rest).indexOf (pixel cs x y) : ℤ) :=
                Int.natCast_nonneg _
              omega
          · exact hne (pixel_out_col hy)
        · exact hne (pixel_out_row hx)
      · intro hz
        rw [hz, hf0]
  · rw [Bool.not_eq_true] at hf
    obtain ⟨proi, ps, ir, cir, pir, hroi, hps, hint, hz⟩ :=
      freshCondition_false_elim st croi hf
    rw [normalize_eq_continuity st cs croi proi ps ir cir pir hroi hps
      hint hz] at hout
    rcases hct : (uniqueSorted cs.flatten).tail with _ | ⟨c0, crest⟩
    · rw [continuityRelabel_nil st cs croi ps cir pir hct] at hout
      cases hout
    · rw [continuityRelabel_cons st cs croi ps cir pir c0 crest hct]
        at hout
      replace hout :
          some (mapGrid (continuityMap st.max_label cs ps cir pir) cs)
            = some out := hout
      injection hout with hout
      have hprev2 : ∀ v ∈ ps.flatten, 0 ≤ v := by
        intro v hvp
        refine hprev v ?_
        rw [hps]
        exact hvp
      rw [← hout,
        pixel_mapGrid _ (continuityMap_zero st.max_label cs ps cir pir)]
      constructor
      · intro hmapz
        by_contra hne
        by_cases hx : x < cs.length
        · by_cases hy : y < (cs.getD x []).length
          · have hmem := pixel_mem_flatten hx hy
            rw [continuityMap_char st.max_label cs ps cir pir hm hprev2
              hvalid h0 _ hmem] at hmapz
            have hvc : pixel cs x y ∈ (uniqueSorted cs.flatten).tail := by
              have humem : pixel cs x y ∈ uniqueSorted cs.flatten :=
                mem_uniqueSorted.mpr hmem
              rw [uniqueSorted_zero_cons hvalid h0] at humem
              rcases List.mem_cons.mp humem with he | ht
              · exact absurd he hne
              · exact ht
            have hpos := specContinuityMap_pos (subgrid ps pir)
              (subgrid cs cir) ((uniqueSorted ps.flatten).tail)
              ((uniqueSorted cs.flatten).tail) st.max_label
              (pixel cs x y) hm (uniqueSorted_tail_pos hprev2) hvc hne
            omega
          · exact hne (pixel_out_col hy)
        · exact hne (pixel_out_row hx)
      · intro hz2
        rw [hz2, continuityMap_zero]

/-- C10 counterexample: a successful continuity call on a raw slice
without any background pixel drops a foreground label: unique()[1:]
discards the smallest value (raw label 5) because no 0 is present, the
label is never claimed or freshly assigned, and its pixel becomes
background 0 in the output while the input pixel was 5. -/
theorem foreground_dropped_without_background :
    (normalize_synapse_ids ⟨1, some [[1]], some ⟨(0, 0, 5), (1, 1, 6)⟩⟩
        [[5], [7]] ⟨(0, 0, 6), (2, 1, 7)⟩).1 = some [[0], [2]] ∧
    pixel [[5], [7]] 0 0 = 5 ∧ pixel [[0], [2]] 0 0 = 0 :=
  ⟨by decide, by decide, by decide⟩

/-- C10 witness: in the continuity call of the section 8 scenario, the
output pixel (0,0) is nonzero exactly as the input pixel is. -/
theorem background_preserved_witness :
    (pixel [[3], [0]] 0 0 = 0 ↔ pixel [[9], [0]] 0 0 = 0) ∧
    (pixel [[3], [0]] 0 1 = 0 ↔ pixel [[9], [0]] 0 1 = 0) :=
  ⟨background_preserved ⟨3, some [[3], [0]], some ⟨(0, 0, 5), (2, 1, 6)⟩⟩
      [[9], [0]] ⟨(0, 0, 6), (2, 1, 7)⟩ [[3], [0]] (by decide) (by decide)
      (by decide) (by decide) (by decide) 0 0,
   background_preserved ⟨3, some [[3], [0]], some ⟨(0, 0, 5), (2, 1, 6)⟩⟩
      [[9], [0]] ⟨(0, 0, 6), (2, 1, 7)⟩ [[3], [0]] (by decide) (by decide)
      (by decide) (by decide) (by decide) 0 1⟩

/-- Well-formedness of a relabeler state: max_label is non-negative and
every stored previous label lies in [0, max_label]. -/
def GoodState (st : SynapseSliceRelabeler) : Prop :=
  0 ≤ st.max_label ∧
  ∀ v ∈ (st.previous_slice.getD []).flatten, 0 ≤ v ∧ v ≤ st.max_label

instance (st : SynapseSliceRelabeler) : Decidable (GoodState st) := by
  unfold GoodState
  infer_instance

theorem freshRelabel_mono (st : SynapseSliceRelabeler) (cs : Slice)
    (croi : Roi3) :
    st.max_label ≤ (freshRelabel st cs croi).2.max_label := by
  cases hu : uniqueSorted cs.flatten with
  | nil =>
    unfold freshRelabel
    rw [hu]
  | cons u0 nz =>
    rw [freshRelabel_eq st cs croi u0 nz hu]
    by_cases h0 : u0 = 0
    · rw [if_pos h0]
      cases nz with
      | nil => exact le_refl _
      | cons a rest =>
        show st.max_label ≤ st.max_label + ((a :: rest).length : ℤ)
        have hp : (0 : ℤ) ≤ ((a :: rest).length : ℤ) := Int.natCast_nonneg _
        omega
    · rw [if_neg h0]

theorem continuityRelabel_mono (st : SynapseSliceRelabeler) (cs : Slice)
    (croi : Roi3) (ps : Slice) (cir pir : Roi2) :
    st.max_label ≤ (continuityRelabel st cs croi ps cir pir).2.max_label := by
  cases hu : (uniqueSorted cs.flatten).tail with
  | nil =>
    rw [continuityRelabel_nil st cs croi ps cir pir hu]
  | cons c0 crest =>
    rw [continuityRelabel_cons st cs croi ps cir pir c0 crest hu]
    show st.max_label ≤ (continuityCore st.max_label cs ps cir pir).2
    exact freshLoop_mono _ _ _

theorem normalize_mono (st : SynapseSliceRelabeler) (cs : Slice)
    (croi : Roi3) :
    st.max_label ≤ (normalize_synapse_ids st cs croi).2.max_label := by
  obtain ⟨maxL, pslice, proi⟩ := st
  cases proi with
  | none =>
    rw [normalize_no_roi]
    exact freshRelabel_mono _ _ _
  | some proi =>
    cases pslice with
    | none =>
      rw [normalize_no_slice]
      exact freshRelabel_mono _ _ _
    | some ps =>
      cases hint : intersection (roi2 croi) (roi2 proi) with
      | none =>
        rw [normalize_some_none maxL ps proi cs croi hint]
        exact freshRelabel_mono _ _ _
      | some ip =>
        rw [normalize_some_some maxL ps proi cs croi ip.1 ip.2.1 ip.2.2
          (by rw [hint])]
        by_cases hz : (planeOf croi - planeOf proi).natAbs > 1
        · rw [if_pos hz]
          exact freshRelabel_mono _ _ _
        · rw [if_neg hz]
          exact continuityRelabel_mono _ _ _ _ _ _

theorem freshRelabelMap_bounds (nz : List ℤ) (hnd : nz.Nodup) (m : ℤ)
    (hm : 0 ≤ m) :
    ∀ w, 0 ≤ freshRelabelMap nz m w ∧
      freshRelabelMap nz m w ≤ m + nz.length := by
  intro w
  by_cases hw : w ∈ nz
  · rw [freshRelabelMap_eq_indexOf nz hnd m w hw]
    have hlt : nz.indexOf w < nz.length := List.indexOf_lt_length.mpr hw
    have h0 : (0 : ℤ) ≤ (nz.indexOf w : ℤ) := Int.natCast_nonneg _
    have h1 : (nz.indexOf w : ℤ) < (nz.length : ℤ) := by exact_mod_cast hlt
    omega
  · rw [freshRelabelMap_not_mem nz m w hw]
    have h0 : (0 : ℤ) ≤ (nz.length : ℤ) := Int.natCast_nonneg _
    omega

theorem claimLoop_bounds (pI cI : Slice) (prevObjs : List ℤ) (maxL : ℤ)
    (hm : 0 ≤ maxL) (hb : ∀ cc ∈ prevObjs, 0 ≤ cc ∧ cc ≤ maxL) :
    ∀ w, 0 ≤ claimLoop pI cI prevObjs (fun _ => 0) w ∧
      claimLoop pI cI prevObjs (fun _ => 0) w ≤ maxL := by
  intro w
  rw [claimLoop_eq_claimedId]
  cases hc : claimedId pI cI prevObjs w with
  | none =>
    refine ⟨by simp, ?_⟩
    simpa using hm
  | some cc =>
    have hbc := hb cc (claimedId_mem pI cI prevObjs w cc hc)
    simpa using hbc

theorem freshRelabel_good (st : SynapseSliceRelabeler) (cs : Slice)
    (croi : Roi3) (hgood : GoodState st) :
    GoodState (freshRelabel st cs croi).2 ∧
    ∀ out, (freshRelabel st cs croi).1 = some out →
      ∀ v ∈ out.flatten,
        0 ≤ v ∧ v ≤ (freshRelabel st cs croi).2.max_label := by
  cases hu : uniqueSorted cs.flatten with
  | nil =>
    unfold freshRelabel
    rw [hu]
    refine ⟨hgood, fun out hout => ?_⟩
    exact Option.noConfusion hout
  | cons u0 nz =>
    rw [freshRelabel_eq st cs croi u0 nz hu]
    by_cases h0 : u0 = 0
    · rw [if_pos h0]
      subst h0
      cases nz with
      | nil =>
        constructor
        · exact ⟨hgood.1, by simp⟩
        · intro out hout
          replace hout : some cs = some out := hout
          injection hout with hout
          intro v hv
          rw [← hout] at hv
          have hvu : v ∈ uniqueSorted cs.flatten := mem_uniqueSorted.mpr hv
          rw [hu] at hvu
          simp at hvu
          subst hvu
          exact ⟨le_refl 0, hgood.1⟩
      | cons a rest =>
        have hnd : (a :: rest).Nodup := by
          have h := uniqueSorted_nodup cs.flatten
          rw [hu, List.nodup_cons] at h
          exact h.2
        have hb := freshRelabelMap_bounds (a :: rest) hnd st.max_label
          hgood.1
        have hlen : (0 : ℤ) ≤ ((a :: rest).length : ℤ) := Int.natCast_nonneg _
        have hval : ∀ v ∈ (mapGrid
            (freshRelabelMap (a :: rest) st.max_label) cs).flatten,
            0 ≤ v ∧ v ≤ st.max_label + ((a :: rest).length : ℤ) := by
          intro v hv
          rw [mapGrid_flatten] at hv
          obtain ⟨w, hwmem, hwv⟩ := List.mem_map.mp hv
          rw [← hwv]
          exact hb w
        constructor
        · refine ⟨?_, ?_⟩
          · show (0 : ℤ) ≤ st.max_label + ((a :: rest).length : ℤ)
            have := hgood.1
            omega
          · exact hval
        · intro out hout
          replace hout : some (mapGrid
              (freshRelabelMap (a :: rest) st.max_label) cs) = some out :=
            hout
          injection hout with hout
          rw [← hout]
          exact hval
    · rw [if_neg h0]
      refine ⟨hgood, fun out hout => ?_⟩
      exact Option.noConfusion hout

theorem continuityRelabel_good (st : SynapseSliceRelabeler) (cs : Slice)
    (croi : Roi3) (ps : Slice) (cir pir : Roi2) (hgood : GoodState st)
    (hps : st.previous_slice = some ps) :
    GoodState (continuityRelabel st cs croi ps cir pir).2 ∧
    ∀ out, (continuityRelabel st cs croi ps cir pir).1 = some out →
      ∀ v ∈ out.flatten,
        0 ≤ v ∧
          v ≤ (continuityRelabel st cs croi ps cir pir).2.max_label := by
  cases hu : (uniqueSorted cs.flatten).tail with
  | nil =>
    rw [continuityRelabel_nil st cs croi ps cir pir hu]
    refine ⟨hgood, fun out hout => ?_⟩
    exact Option.noConfusion hout
  | cons c0 crest =>
    rw [continuityRelabel_cons st cs croi ps cir pir c0 crest hu]
    have hpsb : ∀ v ∈ ps.flatten, 0 ≤ v ∧ v ≤ st.max_label := by
      intro v hv
      refine hgood.2 v ?_
      rw [hps]
      exact hv
    have hprevb : ∀ cc ∈ (uniqueSorted ps.flatten).tail,
        0 ≤ cc ∧ cc ≤ st.max_label := fun cc hcc =>
      hpsb cc (mem_uniqueSorted.mp (List.mem_of_mem_tail hcc))
    have hm1 := claimLoop_bounds (subgrid ps pir) (subgrid cs cir)
      ((uniqueSorted ps.flatten).tail) st.max_label hgood.1 hprevb
    have hcore := freshLoop_bounds ((uniqueSorted cs.flatten).tail)
      (claimLoop (subgrid ps pir) (subgrid cs cir)
        ((uniqueSorted ps.flatten).tail) (fun _ => 0))
      st.max_label hm1
    have hmono : st.max_label ≤ (continuityCore st.max_label cs ps cir pir).2 :=
      freshLoop_mono _ _ _
    have hmapb : ∀ w, 0 ≤ continuityMap st.max_label cs ps cir pir w ∧
        continuityMap st.max_label cs ps cir pir w
          ≤ (continuityCore st.max_label cs ps cir pir).2 := by
      intro w
      unfold continuityMap
      by_cases hw : w = 0
      · rw [if_pos hw]
        refine ⟨le_refl 0, ?_⟩
        have := hgood.1
        omega
      · rw [if_neg hw]
        exact hcore w
    have hval : ∀ v ∈ (mapGrid
        (continuityMap st.max_label cs ps cir pir) cs).flatten,
        0 ≤ v ∧ v ≤ (continuityCore st.max_label cs ps cir pir).2 := by
      intro v hv
      rw [mapGrid_flatten] at hv
      obtain ⟨w, hwmem, hwv⟩ := List.mem_map.mp hv
      rw [← hwv]
      exact hmapb w
    constructor
    · refine ⟨?_, ?_⟩
      · show (0 : ℤ) ≤ (continuityCore st.max_label cs ps cir pir).2
        have := hgood.1
        omega
      · exact hval
    · intro out hout
      replace hout : some (mapGrid
          (continuityMap st.max_label cs ps cir pir) cs) = some out := hout
      injection hout with hout
      rw [← hout]
      exact hval

theorem normalize_good (st : SynapseSliceRelabeler) (cs : Slice)
    (croi : Roi3) (hgood : GoodState st) :
    GoodState (normalize_synapse_ids st cs croi).2 ∧
    ∀ out, (normalize_synapse_ids st cs croi).1 = some out →
      ∀ v ∈ out.flatten,
        0 ≤ v ∧ v ≤ (normalize_synapse_ids st cs croi).2.max_label := by
  obtain ⟨maxL, pslice, proi⟩ := st
  cases proi with
  | none =>
    rw [normalize_no_roi]
    exact freshRelabel_good _ cs croi hgood
  | some proi =>
    cases pslice with
    | none =>
      rw [normalize_no_slice]
      exact freshRelabel_good _ cs croi hgood
    | some ps =>
      cases hint : intersection (roi2 croi) (roi2 proi) with
      | none =>
        rw [normalize_some_none maxL ps proi cs croi hint]
        exact freshRelabel_good _ cs croi hgood
      | some ip =>
        rw [normalize_some_some maxL ps proi cs croi ip.1 ip.2.1 ip.2.2
          (by rw [hint])]
        by_cases hz : (planeOf croi - planeOf proi).natAbs > 1
        · rw [if_pos hz]
          exact freshRelabel_good _ cs croi hgood
        · rw [if_neg hz]
          exact continuityRelabel_good _ cs croi ps ip.2.1 ip.2.2 hgood rfl

theorem runRelabeler_pairwise :
    ∀ (inputs : List (Slice × Roi3)) (st : SynapseSliceRelabeler),
      List.Pairwise (fun a b => a.2.max_label ≤ b.2.max_label)
        (runRelabeler st inputs) ∧
      ∀ e ∈ runRelabeler st inputs, st.max_label ≤ e.2.max_label := by
  intro inputs
  induction inputs with
  | nil =>
    intro st
    exact ⟨List.Pairwise.nil, by simp [runRelabeler]⟩
  | cons p rest ih =>
    intro st
    obtain ⟨cs, croi⟩ := p
    rw [runRelabeler]
    refine ⟨List.pairwise_cons.mpr ⟨?_, (ih _).1⟩, ?_⟩
    · intro e he
      exact (ih _).2 e he
    · intro e he
      rcases List.mem_cons.mp he with he | ht
      · rw [he]
        exact normalize_mono st cs croi
      · exact le_trans (normalize_mono st cs croi) ((ih _).2 e ht)

theorem runRelabeler_invariant :
    ∀ (inputs : List (Slice × Roi3)) (st : SynapseSliceRelabeler),
      GoodState st →
      ∀ e ∈ runRelabeler st inputs,
        GoodState e.2 ∧
        ∀ out, e.1 = some out →
          ∀ v ∈ out.flatten, 0 ≤ v ∧ v ≤ e.2.max_label := by
  intro inputs
  induction inputs with
  | nil =>
    intro st _ e he
    simp [runRelabeler] at he
  | cons p rest ih =>
    intro st hgood e he
    obtain ⟨cs, croi⟩ := p
    rw [runRelabeler] at he
    rcases List.mem_cons.mp he with he | ht
    · rw [he]
      exact ⟨(normalize_good st cs croi hgood).1,
        (normalize_good st cs croi hgood).2⟩
    · exact ih _ (normalize_good st cs croi hgood).1 e ht

/-- C4: global_max_label starts at 0 in the initial relabeler state,
never decreases across a normalize call, the states along any call
sequence are pairwise monotone in max_label, and after every call on
well-formed inputs each nonzero label of every slice emitted so far is
at most the max_label of the state holding right after its call (hence,
by the pairwise monotonicity, at most every later max_label). -/
theorem relabeler_label_invariant (inputs : List (Slice × Roi3))
    (_hv : ∀ p ∈ inputs, ∀ v ∈ p.1.flatten, (0 : ℤ) ≤ v) :
    initRelabeler.max_label = 0 ∧
    (∀ (st : SynapseSliceRelabeler) (cs : Slice) (croi : Roi3),
      st.max_label ≤ (normalize_synapse_ids st cs croi).2.max_label) ∧
    List.Pairwise (fun a b => a.2.max_label ≤ b.2.max_label)
      (runRelabeler initRelabeler inputs) ∧
    (∀ e ∈ runRelabeler initRelabeler inputs, ∀ out, e.1 = some out →
      ∀ v ∈ out.flatten, v ≠ 0 → v ≤ e.2.max_label) := by
  refine ⟨rfl, normalize_mono,
    (runRelabeler_pairwise inputs initRelabeler).1, ?_⟩
  intro e he out hout v hvmem _
  have hginit : GoodState initRelabeler := ⟨le_refl 0, by simp [initRelabeler]⟩
  exact ((runRelabeler_invariant inputs initRelabeler hginit e he).2
    out hout v hvmem).2

/-- C4 witness: a concrete two-call run (a fresh relabel, then a
continuity relabel at the adjacent plane) with the monotonicity and
initial-state conjuncts instantiated. -/
theorem relabeler_label_invariant_witness :
    initRelabeler.max_label = 0 ∧
    List.Pairwise (fun a b => a.2.max_label ≤ b.2.max_label)
      (runRelabeler initRelabeler
        [([[0, 1]], ⟨(0, 0, 0), (1, 2, 1)⟩),
         ([[0, 2]], ⟨(0, 0, 1), (1, 2, 2)⟩)]) :=
  ⟨(relabeler_label_invariant
      [([[0, 1]], ⟨(0, 0, 0), (1, 2, 1)⟩),
       ([[0, 2]], ⟨(0, 0, 1), (1, 2, 2)⟩)] (by decide)).1,
   (relabeler_label_invariant
      [([[0, 1]], ⟨(0, 0, 0), (1, 2, 1)⟩),
       ([[0, 2]], ⟨(0, 0, 1), (1, 2, 2)⟩)] (by decide)).2.2.1⟩

/-- Embedding of flat_predictions.sort(axis=-1) for one pixel: the class
probability vector sorted ascending. -/
def sortedChannels (probs : List ℚ) : List ℚ :=
  List.insertionSort (· ≤ ·) probs

/-- Embedding of the per-pixel certainty of write_synapses: after the
ascending sort, the difference between the last and the second-to-last
entry (flat_predictions[:, -1] - flat_predictions[:, -2]). -/
def pixelMargin (probs : List ℚ) : ℚ :=
  (sortedChannels probs).getD ((sortedChannels probs).length - 1) 0
    - (sortedChannels probs).getD ((sortedChannels probs).length - 2) 0

/-- Embedding of flat_predictions = predictions_xyzc[synapse_cc == sid]:
the class probability vectors of the pixels carrying label sid; a pixel
is a (label, probability vector) pair. -/
def objectPredictions (pixels : List (ℤ × List ℚ)) (sid : ℤ) :
    List (List ℚ) :=
  (pixels.filter (fun p => decide (p.1 = sid))).map (fun p => p.2)

/-- Embedding of the size_px column of write_synapses: the pixel count
of the object. -/
def synapse_size (pixels : List (ℤ × List ℚ)) (sid : ℤ) : ℕ :=
  (objectPredictions pixels sid).length

/-- Embedding of the detection_uncertainty column of write_synapses:
one minus the mean (np.mean) of the per-pixel certainties. -/
def detection_uncertainty (pixels : List (ℤ × List ℚ)) (sid : ℤ) : ℚ :=
  1 - ((objectPredictions pixels sid).map pixelMargin).sum
        / (((objectPredictions pixels sid).map pixelMargin).length : ℚ)

/-- Modelled from the spec wording of claim C8: sort the class
probability vector descending and take the gap between the two largest
entries. -/
def specMargin (probs : List ℚ) : ℚ :=
  (List.insertionSort (· ≥ ·) probs).getD 0 0
    - (List.insertionSort (· ≥ ·) probs).getD 1 0

theorem getD_reverse_of_lt {l : List ℚ} {i : ℕ} (h : i < l.length) :
    l.reverse.getD i 0 = l.getD (l.length - 1 - i) 0 := by
  rw [List.getD_eq_getElem?_getD, List.getD_eq_getElem?_getD,
    List.getElem?_eq_getElem (by simpa using h),
    List.getElem?_eq_getElem (show l.length - 1 - i < l.length by omega)]
  simp [List.getElem_reverse]

theorem insertionSort_ge_eq_reverse (probs : List ℚ) :
    List.insertionSort (· ≥ ·) probs
      = (List.insertionSort (· ≤ ·) probs).reverse := by
  have p1 : (List.insertionSort (· ≥ ·) probs).Perm probs :=
    List.perm_insertionSort _ probs
  have p2 : (List.insertionSort (· ≤ ·) probs).Perm probs :=
    List.perm_insertionSort _ probs
  have p3 : (List.insertionSort (· ≤ ·) probs).reverse.Perm
      (List.insertionSort (· ≤ ·) probs) := List.reverse_perm _
  have hsge : (List.insertionSort (· ≥ ·) probs).Sorted (· ≥ ·) :=
    List.sorted_insertionSort _ probs
  have hsle : (List.insertionSort (· ≤ ·) probs).Sorted (· ≤ ·) :=
    List.sorted_insertionSort _ probs
  have hrev : (List.insertionSort (· ≤ ·) probs).reverse.Sorted (· ≥ ·) :=
    List.pairwise_reverse.mpr hsle
  exact List.eq_of_perm_of_sorted (p1.trans (p2.symm.trans p3.symm))
    hsge hrev

/-- For a vector with at least two channels, the last-minus-second-last
entry of the ascending sort equals the gap between the two largest
entries of the descending sort. -/
theorem pixelMargin_eq_specMargin (probs : List ℚ)
    (hc : 2 ≤ probs.length) : pixelMargin probs = specMargin probs := by
  unfold pixelMargin specMargin sortedChannels
  have hla : (List.insertionSort (· ≤ ·) probs).length = probs.length :=
    (List.perm_insertionSort _ probs).length_eq
  rw [insertionSort_ge_eq_reverse,
    getD_reverse_of_lt
      (show 0 < (List.insertionSort (· ≤ ·) probs).length by omega),
    getD_reverse_of_lt
      (show 1 < (List.insertionSort (· ≤ ·) probs).length by omega)]
  congr 2

/-- C8: for every detected object whose pixels all carry at least two
probability channels, the reported detection uncertainty equals one
minus the mean over the object pixels of the gap between the two
largest entries of each pixel class-probability vector, and the
reported size is the object pixel count. -/
theorem uncertainty_and_size (pixels : List (ℤ × List ℚ)) (sid : ℤ)
    (hc : ∀ p ∈ objectPredictions pixels sid, 2 ≤ p.length) :
    detection_uncertainty pixels sid
      = 1 - ((objectPredictions pixels sid).map specMargin).sum
            / ((synapse_size pixels sid : ℚ)) ∧
    synapse_size pixels sid
      = (pixels.filter (fun p => decide (p.1 = sid))).length := by
  constructor
  · unfold detection_uncertainty
    have hmaps : (objectPredictions pixels sid).map pixelMargin
        = (objectPredictions pixels sid).map specMargin :=
      List.map_congr_left
        (fun p hp => pixelMargin_eq_specMargin p (hc p hp))
    rw [hmaps, List.length_map]
    rfl
  · unfold synapse_size objectPredictions
    rw [List.length_map]

/-- C8 witness: the section 8 scenario, a 4 pixel object with vectors
[0.9, 0.05, 0.05] at three pixels and [0.5, 0.5, 0] at one, yields
uncertainty 1 - (0.85 + 0.85 + 0.85 + 0)/4 = 0.3625 = 29/80 and
size 4. -/
theorem uncertainty_and_size_witness :
    detection_uncertainty
        [(1, [9/10, 1/20, 1/20]), (1, [9/10, 1/20, 1/20]),
         (1, [9/10, 1/20, 1/20]), (1, [1/2, 1/2, 0])] 1 = 29/80 ∧
    synapse_size
        [(1, [9/10, 1/20, 1/20]), (1, [9/10, 1/20, 1/20]),
         (1, [9/10, 1/20, 1/20]), (1, [1/2, 1/2, 0])] 1 = 4 :=
  ⟨((uncertainty_and_size
      [(1, [9/10, 1/20, 1/20]), (1, [9/10, 1/20, 1/20]),
       (1, [9/10, 1/20, 1/20]), (1, [1/2, 1/2, 0])] 1 (by decide)).1).trans
    (by norm_num [objectPredictions, synapse_size, specMargin,
      List.insertionSort, List.orderedInsert, List.filter]),
   ((uncertainty_and_size
      [(1, [9/10, 1/20, 1/20]), (1, [9/10, 1/20, 1/20]),
       (1, [9/10, 1/20, 1/20]), (1, [1/2, 1/2, 0])] 1 (by decide)).2).trans
    (by decide)⟩
